import Mathlib

/-!
Verification of the KTLX reader (`phypno/ioeeg/ktlx.py`).

The file embeds the reader shallowly:

* byte streams are `List ℕ`, each element the value of one byte (`< 256` for
  streams produced by real files or by the reference encoders below);
* `struct.unpack` of the little-endian formats `b`, `h`, `i`, `H` becomes the
  explicit two's-complement readers `int8`, `int16`, `int32`, `uint16At`;
* the numpy matrices become lists: a decoded segment is the list of its
  per-sample columns, each column a list with one entry per channel, so the
  Python `output[c, s]` is entry `c` of column `s`;
* Python exceptions (`struct.error`, `NameError`, `KeyError`,
  `NotImplementedError`, numpy shape errors) become `none` / `.error`;
  sequential `f.read` calls become consumption from the front of the
  remaining byte list, and absolute `f.seek` offsets become positional reads.

Definitions named after the source (`read_erd` for `_read_erd`, and so on)
are translations of the code.  Definitions prefixed `spec` follow the words
of the specification (the reference encoders the spec asks for, the
accumulation recurrence, the segment-index invariant) and are compared with
the translated code in the theorems.
-/

/-! ## Two's-complement readers (struct.unpack formats b, h, i) -/

/-- Signed 8-bit value of one byte, as `unpack('b', ...)` reads it. -/
def int8 (b : ℕ) : ℤ :=
  if b < 128 then (b : ℤ) else (b : ℤ) - 256

/-- Signed 16-bit little-endian value of two bytes, as `unpack('h', ...)`. -/
def int16 (b0 b1 : ℕ) : ℤ :=
  if b0 + 256 * b1 < 32768 then (b0 + 256 * b1 : ℤ)
  else (b0 + 256 * b1 : ℤ) - 65536

/-- Signed 32-bit little-endian value of four bytes, as `unpack('i', ...)`. -/
def int32 (b0 b1 b2 b3 : ℕ) : ℤ :=
  if b0 + 256 * b1 + 65536 * b2 + 16777216 * b3 < 2147483648 then
    (b0 + 256 * b1 + 65536 * b2 + 16777216 * b3 : ℤ)
  else (b0 + 256 * b1 + 65536 * b2 + 16777216 * b3 : ℤ) - 4294967296

/-! ## The delta-stream decoder (`_read_erd`)

`_read_erd` reads the whole file into `filebytes`, seeds the cursor at the
first sample (4560 for schema 7, 8656 for schemas 8 and 9), then repeats,
per sample: event byte, delta mask (schemas 8 and 9 only), one delta slot
per channel, and one 32-bit absolute value per channel whose slot held the
escape sentinel.  The loop `break`s when the event-byte slice is empty; any
short `unpack` slice raises, which is `none` here. -/

/-- Outcome of one per-channel delta slot: a decoded delta, or the escape
sentinel announcing a pending 32-bit absolute value. -/
inductive SlotOut
  | val (d : ℤ)
  | pending
deriving DecidableEq

/-- Length of the delta mask in bytes: `int(ceil(n_chan / 8))`. -/
def l_deltamask (n_chan : ℕ) : ℕ := (n_chan + 7) / 8

/-- Byte offset of the first sample in a raw-data file. -/
def erdStartOffset (schema : ℕ) : ℕ := if schema = 7 then 4560 else 8656

/-- The escape sentinel `abs_delta`: one byte `\x80` for schema 7, two bytes
`\xff\xff` for schemas 8 and 9. -/
def erdAbsDelta (schema : ℕ) : List ℕ := if schema = 7 then [128] else [255, 255]

/-- One delta slot: read 2 bytes (wide, mask bit 1) or 1 byte (narrow, mask
bit 0); a slice equal to `abs_delta` marks the channel pending, otherwise
the slice is unpacked as a signed 16- or 8-bit delta.  A short slice is not
equal to the sentinel and makes `unpack` raise (`none`). -/
def readSlot (absDelta : List ℕ) (wide : Bool) (rem : List ℕ) :
    Option (SlotOut × List ℕ) :=
  let k := if wide then 2 else 1
  if rem.take k = absDelta then some (.pending, rem.drop k)
  else if wide then
    match rem with
    | b0 :: b1 :: rest => some (.val (int16 b0 b1), rest)
    | _ => none
  else
    match rem with
    | b0 :: rest => some (.val (int8 b0), rest)
    | _ => none

/-- The per-channel slot loop over the first `num_channels` mask bits. -/
def readSlots (absDelta : List ℕ) : List Bool → List ℕ → Option (List SlotOut × List ℕ)
  | [], rem => some ([], rem)
  | m :: ms, rem =>
    match readSlot absDelta m rem with
    | none => none
    | some (s, rem1) =>
      match readSlots absDelta ms rem1 with
      | none => none
      | some (ss, rem2) => some (s :: ss, rem2)

/-- The absolute-value pass: channels in index order; a `val` slot yields
`previous + delta`, a `pending` slot consumes four bytes and yields the
literal signed 32-bit value. -/
def resolveAbs : List SlotOut → List ℤ → List ℕ → Option (List ℤ × List ℕ)
  | [], _, rem => some ([], rem)
  | SlotOut.val d :: ss, p :: ps, rem =>
    match resolveAbs ss ps rem with
    | none => none
    | some (col, rem2) => some ((p + d) :: col, rem2)
  | SlotOut.pending :: ss, _ :: ps, rem =>
    match rem with
    | b0 :: b1 :: b2 :: b3 :: rest =>
      match resolveAbs ss ps rest with
      | none => none
      | some (col, rem2) => some (int32 b0 b1 b2 b3 :: col, rem2)
    | _ => none
  | _ :: _, [], _ => none

/-- The delta mask for one sample.  Schema 7 has no mask in the stream and
uses the all-narrow fake mask `'0' * n_chan`; schemas 8 and 9 take bit
`c % 8` of mask byte `c / 8`, matching the source's `'{0:08b}'.format`
followed by the `[::-1]` reversal and concatenation. -/
def sampleMask (schema n_chan : ℕ) (maskbytes : List ℕ) : List Bool :=
  if schema = 7 then List.replicate n_chan false
  else (List.range n_chan).map (fun c => Nat.testBit (maskbytes.getD (c / 8) 0) (c % 8))

/-- Result of decoding one sample record. -/
inductive StepResult
  | err
  | eof
  | ok (col : List ℤ) (rest : List ℕ)
deriving DecidableEq

/-- Decode one sample record from the remaining bytes.  The event byte is
read and accepted whatever its value: the source wraps its assertion in
`try`, and the `except` branch merely constructs an `Exception` without
raising it, so execution continues for every event byte. -/
def stepSample (schema n_chan : ℕ) (prev : List ℤ) (rem : List ℕ) : StepResult :=
  match rem with
  | [] => .eof
  | _ev :: rem1 =>
    let l := l_deltamask n_chan
    let maskres : Option (List ℕ × List ℕ) :=
      if schema = 7 then some ([], rem1)
      else if l ≤ rem1.length then some (rem1.take l, rem1.drop l) else none
    match maskres with
    | none => .err
    | some (mb, rem2) =>
      match readSlots (erdAbsDelta schema) (sampleMask schema n_chan mb) rem2 with
      | none => .err
      | some (slots, rem3) =>
        match resolveAbs slots prev rem3 with
        | none => .err
        | some (col, rem4) => .ok col rem4

/-- The sample loop: at most `n_samples` records; a clean end of stream at a
record boundary stops the loop, any mid-record shortage is an error. -/
def decodeSamples (schema n_chan : ℕ) : ℕ → List ℤ → List ℕ → Option (List (List ℤ))
  | 0, _, _ => some []
  | n + 1, prev, rem =>
    match stepSample schema n_chan prev rem with
    | .err => none
    | .eof => some []
    | .ok col rest =>
      match decodeSamples schema n_chan n col rest with
      | none => none
      | some cols => some (col :: cols)

/-- The integer matrix `output` of `_read_erd`, as its list of per-sample
columns.  It is allocated as `zeros((n_chan, n_samples))`, so sample 0 adds
its deltas to zeros (`output[:, -1]` is still all zero when sample 0 is
decoded) and samples the loop never reached stay zero-filled.  Schemas
outside {7, 8, 9} leave the cursor and sentinel unassigned in the source
(`NameError`), hence `none`. -/
def readErdOutput (schema n_chan n_samples : ℕ) (filebytes : List ℕ) :
    Option (List (List ℤ)) :=
  if schema = 7 ∨ schema = 8 ∨ schema = 9 then
    match decodeSamples schema n_chan n_samples (List.replicate n_chan 0)
        (filebytes.drop (erdStartOffset schema)) with
    | none => none
    | some cols =>
      some (cols ++ List.replicate (n_samples - cols.length) (List.replicate n_chan 0))
  else none

/-! ## The conversion-factor calculator (`_calculate_conversion`)

Python floats become exact rationals here; the conversion constants are
small ratios, so the structural facts (constant bands, the `2 **
discardbits` scale, the final `1e-6`) are unchanged. -/

/-- Per-channel conversion factors for a headbox type: concatenated constant
bands, scaled by `2 ** discardbits`, truncated to `num_channels` and scaled
by `1e-6`.  An unlisted headbox type raises `NotImplementedError`. -/
def calculate_conversion (headbox0 : ℤ) (discardbits : ℤ) (n_chan : ℕ) :
    Option (List ℚ) :=
  let p : ℚ := 2 ^ discardbits
  let factor : Option (List ℚ) :=
    if headbox0 = 1 ∨ headbox0 = 3 then
      some (List.replicate n_chan ((8711 : ℚ) / (221 - 0.5) * p))
    else if headbox0 = 4 then
      some (List.replicate 24 ((8711 : ℚ) / (221 - 0.5) * p)
        ++ List.replicate 4 ((5000000 : ℚ) / (210 - 0.5) / 26 * p))
    else if headbox0 = 21 then
      some (List.replicate 128 ((8711 : ℚ) / (221 - 0.5) * p)
        ++ List.replicate 2 ((1 : ℚ) / 26 * p)
        ++ List.replicate 126 ((8711 : ℚ) / (221 - 0.5) * p))
    else if headbox0 = 22 then
      some (List.replicate 32 ((8711 : ℚ) / (221 - 0.5) * p)
        ++ List.replicate 8 ((10800000 : ℚ) / 65536 / 26 * p)
        ++ List.replicate 2 ((1 : ℚ) / 26 * p)
        ++ List.replicate 1 ((10800000 : ℚ) / 65536 / 26 * p))
    else none
  match factor with
  | none => none
  | some f => some ((f.take n_chan).map (fun x => x * 1e-6))

/-! ## The file header (`_read_hdr_file`) -/

/-- Failures of header parsing: the two `NotImplementedError` branches, the
`struct.error` raised by a short `f.read`, and the `UnicodeDecodeError`
raised by `_make_str` on a non-ASCII byte. -/
inductive HdrError
  | unsupportedSchema (s : ℕ)
  | unsupportedBaseSchema (b : ℕ)
  | truncated
  | decodeFailure
deriving DecidableEq

/-- Unsigned 16-bit little-endian read at a byte position (`unpack('H')`). -/
def readU16 (bs : List ℕ) (pos : ℕ) : Except HdrError ℕ :=
  if pos + 2 ≤ bs.length then .ok (bs.getD pos 0 + 256 * bs.getD (pos + 1) 0)
  else .error .truncated

/-- Signed 32-bit little-endian read at a byte position (`unpack('i')`). -/
def readI32 (bs : List ℕ) (pos : ℕ) : Except HdrError ℤ :=
  if pos + 4 ≤ bs.length then
    .ok (int32 (bs.getD pos 0) (bs.getD (pos + 1) 0) (bs.getD (pos + 2) 0)
      (bs.getD (pos + 3) 0))
  else .error .truncated

/-- A run of `n` signed 32-bit reads (`unpack('i' * n)`). -/
def readI32s (bs : List ℕ) (pos n : ℕ) : Except HdrError (List ℤ) :=
  if pos + 4 * n ≤ bs.length then
    .ok ((List.range n).map (fun k => int32 (bs.getD (pos + 4 * k) 0)
      (bs.getD (pos + 4 * k + 1) 0) (bs.getD (pos + 4 * k + 2) 0)
      (bs.getD (pos + 4 * k + 3) 0)))
  else .error .truncated

/-- A run of `n` signed 16-bit reads (`unpack('h' * n)`). -/
def readI16s (bs : List ℕ) (pos n : ℕ) : Except HdrError (List ℤ) :=
  if pos + 2 * n ≤ bs.length then
    .ok ((List.range n).map (fun k => int16 (bs.getD (pos + 2 * k) 0)
      (bs.getD (pos + 2 * k + 1) 0)))
  else .error .truncated

/-- A raw chunk of exactly `n` bytes (`unpack('c' * n, f.read(n))`). -/
def readChunk (bs : List ℕ) (pos n : ℕ) : Except HdrError (List ℕ) :=
  if pos + n ≤ bs.length then .ok ((bs.drop pos).take n)
  else .error .truncated

/-- `_make_str`: take bytes up to the first null; each byte is decoded as
UTF-8 on its own, which fails for any byte above 127. -/
def make_str (cs : List ℕ) : Except HdrError (List ℕ) :=
  let t := cs.takeWhile (fun b => b ≠ 0)
  if t.all (fun b => b < 128) then .ok t else .error .decodeFailure

/-- Fields present from schema 7 on.  `sample_freq` keeps the raw eight
bytes of the IEEE-754 double; no claim interprets its value. -/
structure HdrExt7 where
  sample_freq : List ℕ
  num_channels : ℕ
  deltabits : ℤ
  phys_chan : List ℤ
  headbox_type : List ℤ
  headbox_sn : List ℤ
  headbox_sw_version : List ℕ
  dsp_hw_version : List ℕ
  dsp_sw_version : List ℕ
  discardbits : ℤ
deriving DecidableEq

/-- Fields present from schema 8 on. -/
structure HdrExt8 where
  shorted : List ℤ
  frequency_factor : List ℤ
deriving DecidableEq

/-- The parsed generic header.  The numeric `patient_id` at offset 24 is
read and then overwritten by the string at offset 272, exactly as the
source's dict assignment does, so only the string is kept. -/
structure Hdr where
  file_guid : List ℕ
  file_schema : ℕ
  base_schema : ℕ
  creation_time : ℤ
  study_id : ℤ
  pat_last_name : List ℕ
  pat_first_name : List ℕ
  pat_middle_name : List ℕ
  patient_id : List ℕ
  ext7 : Option HdrExt7
  ext8 : Option HdrExt8
deriving DecidableEq

/-- `_read_hdr_file`: the fixed-offset common block, then the schema-7 and
schema-8 extension blocks.  All-or-nothing: every failure path is an
exception in the source, so no partial header is ever produced. -/
def read_hdr_file (bs : List ℕ) : Except HdrError Hdr := do
  let file_guid := bs.take 16
  let file_schema ← readU16 bs 16
  if file_schema = 1 ∨ file_schema = 7 ∨ file_schema = 8 ∨ file_schema = 9 then do
    let base_schema ← readU16 bs 18
    if base_schema = 1 then do
      let creation_time ← readI32 bs 20
      let _patient_id_num ← readI32 bs 24
      let study_id ← readI32 bs 28
      let pat_last_name ← make_str (← readChunk bs 32 80)
      let pat_first_name ← make_str (← readChunk bs 112 80)
      let pat_middle_name ← make_str (← readChunk bs 192 80)
      let patient_id ← make_str (← readChunk bs 272 80)
      let ext7 ← (if 7 ≤ file_schema then do
        let sample_freq ← readChunk bs 352 8
        let ncz ← readI32 bs 360
        if ncz < 0 then (.error .truncated : Except HdrError (Option HdrExt7)) else do
          let num_channels := ncz.toNat
          let deltabits ← readI32 bs 364
          let phys_chan ← readI32s bs 368 num_channels
          let headbox_type ← readI32s bs 4464 4
          let headbox_sn ← readI32s bs 4480 4
          let headbox_sw_version ← make_str (← readChunk bs 4496 40)
          let dsp_hw_version ← make_str (← readChunk bs 4536 10)
          let dsp_sw_version ← make_str (← readChunk bs 4546 10)
          let discardbits ← readI32 bs 4556
          pure (some (HdrExt7.mk sample_freq num_channels deltabits phys_chan
            headbox_type headbox_sn headbox_sw_version dsp_hw_version
            dsp_sw_version discardbits))
        else pure none)
      let ext8 ← (if 8 ≤ file_schema then do
        let shorted ← readI16s bs 4560 1024
        let frequency_factor ← readI16s bs 6608 1024
        pure (some (HdrExt8.mk shorted frequency_factor))
        else pure (none : Option HdrExt8))
      pure (Hdr.mk file_guid file_schema base_schema creation_time study_id
        pat_last_name pat_first_name pat_middle_name patient_id ext7 ext8)
    else .error (.unsupportedBaseSchema base_schema)
  else .error (.unsupportedSchema file_schema)

/-- `_read_erd` end to end: the caller's number of channels, the schema and
the conversion factor all come from the header of the very file being
decoded; the header, parsed by `read_hdr_file`, is passed in explicitly.
The returned matrix is `expand_dims(factor, 1) * output`: the converted
values, not the raw integers.  A `factor` whose length differs from the
number of output rows fails numpy broadcasting. -/
def read_erd (hdr : Hdr) (n_samples : ℕ) (filebytes : List ℕ) :
    Option (List (List ℚ)) := do
  let ext ← hdr.ext7
  let n_chan := ext.num_channels
  let output ← readErdOutput hdr.file_schema n_chan n_samples filebytes
  let factor ← calculate_conversion (ext.headbox_type.getD 0 0) ext.discardbits n_chan
  if factor.length = n_chan then
    pure (output.map (fun col => List.zipWith (fun (f : ℚ) (v : ℤ) => f * (v : ℚ)) factor col))
  else none

/-! ## The segment table of contents (`_read_stc`) -/

/-- The fixed fields read right after the 352-byte generic header. -/
structure StcHdr where
  next_segment : ℤ
  final : ℤ
  padding : List ℤ
deriving DecidableEq

/-- One fixed-length STC entry. -/
structure StcEntry where
  segment_name : List ℕ
  start_stamp : ℤ
  end_stamp : ℤ
  sample_num : ℤ
  sample_span : ℤ
deriving DecidableEq, Inhabited

/-- The record loop of `_read_stc`: fixed 272-byte records until the end of
the file, each read as the 256-byte name then four sequential 4-byte
signed fields.  Stopping is exact (`f.tell() == endfile`); a trailing
fragment shorter than one record makes `unpack` raise. -/
def parseStcRecords (rem : List ℕ) : Except HdrError (List StcEntry) :=
  if h0 : rem = [] then .ok []
  else if h272 : 272 ≤ rem.length then
    match make_str (rem.take 256) with
    | .error e => .error e
    | .ok name =>
      match rem.drop 256 with
      | a0 :: a1 :: a2 :: a3 :: b0 :: b1 :: b2 :: b3 ::
          c0 :: c1 :: c2 :: c3 :: d0 :: d1 :: d2 :: d3 :: _ =>
        match parseStcRecords (rem.drop 272) with
        | .error e2 => .error e2
        | .ok es =>
          .ok (StcEntry.mk name (int32 a0 a1 a2 a3) (int32 b0 b1 b2 b3)
            (int32 c0 c1 c2 c3) (int32 d0 d1 d2 d3) :: es)
      | _ => .error .truncated
  else .error .truncated
termination_by rem.length
decreasing_by simp [List.length_drop]; omega

/-- `_read_stc`: skip the 352-byte generic header, read the STC header
fields, then all records.  No relation between the records is checked. -/
def read_stc (bs : List ℕ) : Except HdrError (StcHdr × List StcEntry) := do
  let next_segment ← readI32 bs 352
  let final ← readI32 bs 356
  let padding ← readI32s bs 360 12
  let entries ← parseStcRecords (bs.drop 408)
  pure (StcHdr.mk next_segment final padding, entries)

/-! ## The random-access reader (`Ktlx.return_dat`)

`return_dat` re-reads the `.stc` file, keeps the per-segment sample spans,
prefixes the cumulative sums with 0 (`n_sam_rec`), locates the first and
last overlapping segments, and fills a `zeros((len(chan), endsam -
begsam))` matrix segment by segment.  The per-segment decode
`_read_erd(erd_file, endpos_rec)` is abstracted by the function
`erd : segment index → requested sample count → converted matrix`, whose
behaviour on real files is `read_erd` above.  Python slice arithmetic on
signed positions (negative indices count from the end, out-of-range clips)
is reproduced by `pyIdx`; numpy assignment demands matching widths except
for broadcasting a single column. -/

/-- Resolve one Python slice endpoint against a sequence length. -/
def pyIdx (n : ℕ) (i : ℤ) : ℕ :=
  if i < 0 then ((n : ℤ) + i).toNat else min n i.toNat

/-- The Python slice `l[a:b]`. -/
def pySlice {α : Type} (l : List α) (a b : ℤ) : List α :=
  (l.take (pyIdx l.length b)).drop (pyIdx l.length a)

/-- Fit a value row to a target slice width, as numpy assignment does:
exact width, or broadcast of a single element. -/
def fitWidth (w : ℕ) (vals : List ℚ) : Option (List ℚ) :=
  if vals.length = w then some vals
  else if vals.length = 1 then some (List.replicate w (vals.getD 0 0))
  else none

/-- `row[d1:d2] = vals` on one row of the output matrix. -/
def assignRow (row : List ℚ) (d1 d2 : ℤ) (vals : List ℚ) : Option (List ℚ) :=
  let lo := pyIdx row.length d1
  let hi := pyIdx row.length d2
  let w := hi - lo
  match fitWidth w vals with
  | none => none
  | some vs => some (row.take lo ++ vs ++ row.drop (lo + w))

/-- `dat[:, d1:d2] = rhs` row by row. -/
def datAssign (dat : List (List ℚ)) (d1 d2 : ℤ) (rhs : List (List ℚ)) :
    Option (List (List ℚ)) :=
  if dat.length = rhs.length then
    (List.zip dat rhs).mapM (fun pr => assignRow pr.1 d1 d2 pr.2)
  else none

/-- Cumulative sums, `numpy.cumsum`. -/
def cumsumFrom (acc : ℤ) : List ℤ → List ℤ
  | [] => []
  | x :: xs => (acc + x) :: cumsumFrom (acc + x) xs

/-- `n_sam_rec = concatenate(([0], cumsum(all_samples)))`. -/
def n_sam_rec (spans : List ℤ) : List ℤ := 0 :: cumsumFrom 0 spans

/-- `where(l <= x)[0][-1]`: the last index satisfying the bound, or the
`IndexError` of indexing an empty match list. -/
def lastIdxLE (l : List ℤ) (x : ℤ) : Option ℕ :=
  ((List.range l.length).filter (fun i => decide (l.getD i 0 ≤ x))).getLast?

/-- `where(l < x)[0][-1]`. -/
def lastIdxLT (l : List ℤ) (x : ℤ) : Option ℕ :=
  ((List.range l.length).filter (fun i => decide (l.getD i 0 < x))).getLast?

/-- One iteration of the per-segment loop of `return_dat`: decode segment
`rec` up to the local end position, slice out the requested channels and
the local sample range, and assign the slice to columns `d1:d2` of the
output.  A negative requested sample count would make `zeros` in
`_read_erd` raise. -/
def returnDatStep (erd : ℕ → ℕ → List (List ℚ)) (chan : List ℕ)
    (begpos endpos : ℤ) (rec : ℕ) (dat : List (List ℚ)) (d1 : ℤ) :
    Option (List (List ℚ) × ℤ) :=
  let d2 := endpos - begpos + d1
  if endpos < 0 then none
  else
    let dat_rec := erd rec endpos.toNat
    match chan.mapM (fun c => dat_rec.get? c) with
    | none => none
    | some rows =>
      match datAssign dat d1 d2 (rows.map (fun r => pySlice r begpos endpos)) with
      | none => none
      | some dat2 => some (dat2, d2)

/-- The per-segment loop of `return_dat`.  For each overlapping segment the
local start is `begsam - n_sam_rec[rec]` on the first segment and 0 after,
and the local end is `endsam - n_sam_rec[rec]` on the last segment and
`n_sam_rec[rec] + 1` before it (sic). -/
def returnDatLoop (erd : ℕ → ℕ → List (List ℚ)) (nsr : List ℤ) (chan : List ℕ)
    (begrec endrec : ℕ) (begsam endsam : ℤ) :
    List ℕ → List (List ℚ) × ℤ → Option (List (List ℚ) × ℤ)
  | [], st => some st
  | rec :: recs, (dat, d1) =>
    match returnDatStep erd chan
        (if rec = begrec then begsam - nsr.getD rec 0 else 0)
        (if rec = endrec then endsam - nsr.getD rec 0 else nsr.getD rec 0 + 1)
        rec dat d1 with
    | none => none
    | some st2 => returnDatLoop erd nsr chan begrec endrec begsam endsam recs st2

/-- `Ktlx.return_dat` over the parsed segment spans: locate the first and
last overlapping segments and assemble the output matrix.  `none` is any
of the source's uncaught exceptions (empty `where` match, negative
dimension, missing channel row, numpy shape mismatch). -/
def return_dat (erd : ℕ → ℕ → List (List ℚ)) (spans : List ℤ) (chan : List ℕ)
    (begsam endsam : ℤ) : Option (List (List ℚ)) :=
  match lastIdxLE (n_sam_rec spans) begsam with
  | none => none
  | some begrec =>
    match lastIdxLT (n_sam_rec spans) endsam with
    | none => none
    | some endrec =>
      if endsam - begsam < 0 then none
      else
        match returnDatLoop erd (n_sam_rec spans) chan begrec endrec begsam endsam
            (List.range' begrec (endrec + 1 - begrec))
            (List.replicate chan.length
              (List.replicate (endsam - begsam).toNat (0 : ℚ)), 0) with
        | none => none
        | some (dat, _) => some dat

/-! ## Reference encoder and accumulation recurrence

These definitions follow the words of the specification, not the source:
the spec asks for "a matching test encoder" producing a byte stream from
known per-channel deltas, and states the recurrence `value[channel][sample]
= value[channel][sample - 1] + delta` with sample 0's predecessor equal
to 0.  A sample is a list of `(wide?, delta)` pairs, one per channel. -/

/-- Encode a delta as one two's-complement byte. -/
def specEncodeByte (d : ℤ) : ℕ := (d % 256).toNat

/-- Encode a delta as two two's-complement little-endian bytes. -/
def specEncode16 (d : ℤ) : List ℕ :=
  [(d % 65536 % 256).toNat, (d % 65536 / 256).toNat]

/-- One delta slot: two bytes when the mask bit is 1, one byte when 0. -/
def specEncodeSlot (wide : Bool) (d : ℤ) : List ℕ :=
  if wide then specEncode16 d else [specEncodeByte d]

/-- A mask byte from its eight flags, bit 0 first. -/
def specByteOfBits (g : ℕ → Bool) : ℕ :=
  (if g 0 then 1 else 0) + 2 * (if g 1 then 1 else 0) + 4 * (if g 2 then 1 else 0)
    + 8 * (if g 3 then 1 else 0) + 16 * (if g 4 then 1 else 0)
    + 32 * (if g 5 then 1 else 0) + 64 * (if g 6 then 1 else 0)
    + 128 * (if g 7 then 1 else 0)

/-- The delta-mask bytes: channel flags least-significant-bit first, the
spare bits of the last byte filled with 1 as the format prescribes. -/
def specMaskBytes (n_chan : ℕ) (flags : ℕ → Bool) : List ℕ :=
  (List.range (l_deltamask n_chan)).map
    (fun k => specByteOfBits (fun j => if 8 * k + j < n_chan then flags (8 * k + j) else true))

/-- One encoded sample record: event byte 0, the delta mask (absent for
schema 7), then the per-channel delta slots. -/
def specEncodeSample (schema n_chan : ℕ) (s : List (Bool × ℤ)) : List ℕ :=
  0 :: ((if schema = 7 then [] else specMaskBytes n_chan (fun c => (s.getD c (true, 0)).1))
    ++ (s.map (fun p => specEncodeSlot p.1 p.2)).flatten)

/-- A whole encoded raw-data file: an all-zero header region up to the
first sample, then the encoded sample records. -/
def specEncodeErd (schema n_chan : ℕ) (samples : List (List (Bool × ℤ))) : List ℕ :=
  List.replicate (erdStartOffset schema) 0
    ++ (samples.map (specEncodeSample schema n_chan)).flatten

/-- The accumulated values the spec promises: each sample's column adds its
deltas to the previous column. -/
def specAccumulate (prev : List ℤ) : List (List (Bool × ℤ)) → List (List ℤ)
  | [] => []
  | s :: rest =>
    let col := List.zipWith (fun a p => a + p.2) prev s
    col :: specAccumulate col rest

/-- The column reached after all samples (used to thread the induction). -/
def specFold (prev : List ℤ) (samples : List (List (Bool × ℤ))) : List ℤ :=
  samples.foldl (fun a s => List.zipWith (fun x p => x + p.2) a s) prev

/-- A delta an encoder can represent without colliding with the escape
sentinel: in range for its width, and distinct from the sentinel pattern
(`\x80`, that is -128, for a narrow schema-7 slot; `\xff\xff`, that is -1,
for a wide schema-8/9 slot). -/
def ValidDelta (schema : ℕ) (p : Bool × ℤ) : Prop :=
  (p.1 = true → -32768 ≤ p.2 ∧ p.2 < 32768 ∧ ((schema = 8 ∨ schema = 9) → p.2 ≠ -1)) ∧
  (p.1 = false → -128 ≤ p.2 ∧ p.2 < 128 ∧ (schema = 7 → p.2 ≠ -128))

instance (schema : ℕ) (p : Bool × ℤ) : Decidable (ValidDelta schema p) := by
  unfold ValidDelta; infer_instance

/-- The invariant the spec claims `_read_stc` checks: each entry's
cumulative offset is the previous offset plus the previous span. -/
def specStcConsistent (es : List StcEntry) : Prop :=
  ∀ i < es.length, 0 < i →
    (es.getD i default).sample_num
      = (es.getD (i - 1) default).sample_num + (es.getD (i - 1) default).sample_span

instance (es : List StcEntry) : Decidable (specStcConsistent es) := by
  unfold specStcConsistent; infer_instance

/-- Encode a signed 32-bit value as four little-endian bytes. -/
def specEncodeI32 (x : ℤ) : List ℕ :=
  [(x % 4294967296 % 256).toNat, (x % 4294967296 / 256 % 256).toNat,
    (x % 4294967296 / 65536 % 256).toNat, (x % 4294967296 / 16777216 % 256).toNat]

/-- One encoded STC record: the null-padded 256-byte name field, then the
four stamp and offset fields. -/
def specEncodeStcEntry (e : StcEntry) : List ℕ :=
  (e.segment_name ++ List.replicate (256 - e.segment_name.length) 0)
    ++ (specEncodeI32 e.start_stamp ++ specEncodeI32 e.end_stamp
      ++ specEncodeI32 e.sample_num ++ specEncodeI32 e.sample_span)

/-- A whole encoded STC file: an all-zero generic header and STC header
block, then the records. -/
def specEncodeStc (entries : List StcEntry) : List ℕ :=
  List.replicate 408 0 ++ (entries.map specEncodeStcEntry).flatten

/-- An entry the encoder can represent: an ASCII name without nulls that
fits the field, and fields in signed 32-bit range. -/
def ValidStcEntry (e : StcEntry) : Prop :=
  (e.segment_name.length ≤ 255 ∧ ∀ b ∈ e.segment_name, 0 < b ∧ b < 128) ∧
  (∀ x ∈ [e.start_stamp, e.end_stamp, e.sample_num, e.sample_span],
    -2147483648 ≤ x ∧ x < 2147483648)

instance (e : StcEntry) : Decidable (ValidStcEntry e) := by
  unfold ValidStcEntry; infer_instance

/-! ## Concrete inputs used by the counterexamples and witnesses -/

/-- Per-segment decoded data for the two-segment examples: segment 0 holds
samples 10, 11, 12 and segment 1 holds 20, 21, 22 on a single channel. -/
def segDataC6 (r : ℕ) : List (List ℚ) :=
  if r = 0 then [[10, 11, 12]] else [[20, 21, 22]]

/-- The abstracted `_read_erd` for those segments: the first `n` samples,
zero-filled past the end of the segment exactly as the decoder's `zeros`
allocation leaves them. -/
def erdC6 (r n : ℕ) : List (List ℚ) :=
  (segDataC6 r).map (fun row => (List.range n).map (fun s => row.getD s 0))

/-- Two-channel single-segment data for the shape witness. -/
def erdC8 (_r n : ℕ) : List (List ℚ) :=
  [[1, 2, 3], [4, 5, 6]].map (fun row => (List.range n).map (fun s => row.getD s 0))

/-- A header as `_read_hdr_file` parses it for a schema-8, one-channel,
headbox-1 recording with no discard bits. -/
def hdrC4 : Hdr :=
  Hdr.mk [] 8 1 0 0 [] [] [] []
    (some (HdrExt7.mk (List.replicate 8 0) 1 0 [0] [1, 0, 0, 0] [0, 0, 0, 0] [] [] [] 0))
    (some (HdrExt8.mk (List.replicate 1024 0) (List.replicate 1024 0)))

/-- A schema-8 single-channel raw-data file holding one sample with
narrow delta 5. -/
def bytesC4 : List ℕ := List.replicate 8656 0 ++ [0, 0, 5]

/-- The concrete two-channel schema-8 sample list used by the C1 witness. -/
def c1Samples : List (List (Bool × ℤ)) :=
  [[(false, 5), (true, -300)], [(false, -7), (true, 70)]]

/-- The concrete single-channel schema-8 sample list used by the C2 witness. -/
def c2Samples : List (List (Bool × ℤ)) := [[(false, 5)], [(false, 7)]]

/-- The two concrete segment records of the C5 example: the second record's
cumulative offset is 99, not the 0 + 5 the invariant would demand. -/
def stcE1 : StcEntry := StcEntry.mk [65] 0 4 0 5

/-- The inconsistent second record. -/
def stcE2 : StcEntry := StcEntry.mk [66] 5 9 99 7

/-! ## Helper lemmas -/

theorem drop_replicate_append {α : Type} (n : ℕ) (x : α) (l : List α) :
    (List.replicate n x ++ l).drop n = l := by
  rw [List.drop_append_of_le_length (by simp)]
  simp

theorem int8_specEncodeByte (d : ℤ) (h1 : -128 ≤ d) (h2 : d < 128) :
    int8 (specEncodeByte d) = d := by
  unfold int8 specEncodeByte
  split <;> omega

theorem specEncodeByte_ne_128 (d : ℤ) (h1 : -128 ≤ d) (h2 : d < 128)
    (h3 : d ≠ -128) : specEncodeByte d ≠ 128 := by
  unfold specEncodeByte
  omega

theorem int16_specEncode16 (d : ℤ) (h1 : -32768 ≤ d) (h2 : d < 32768) :
    int16 (d % 65536 % 256).toNat (d % 65536 / 256).toNat = d := by
  unfold int16
  split <;> omega

theorem specEncode16_ne_escape (d : ℤ) (h1 : -32768 ≤ d) (h2 : d < 32768)
    (h3 : d ≠ -1) : ¬((d % 65536 % 256).toNat = 255 ∧ (d % 65536 / 256).toNat = 255) := by
  omega

theorem readSlot_encode (schema : ℕ) (w : Bool) (d : ℤ) (rest : List ℕ)
    (hs : schema = 7 ∨ schema = 8 ∨ schema = 9)
    (hv : ValidDelta schema (w, d)) (h7 : schema = 7 → w = false) :
    readSlot (erdAbsDelta schema) w (specEncodeSlot w d ++ rest)
      = some (.val d, rest) := by
  obtain ⟨hw, hn⟩ := hv
  cases w with
  | true =>
    have hs89 : schema = 8 ∨ schema = 9 := by
      rcases hs with h | h | h
      · exact absurd (h7 h) (by simp)
      · exact Or.inl h
      · exact Or.inr h
    obtain ⟨hd1, hd2, hd3⟩ := hw rfl
    have habs : erdAbsDelta schema = [255, 255] := by
      rcases hs89 with h | h <;> simp [erdAbsDelta, h]
    have hesc := specEncode16_ne_escape d hd1 hd2 (hd3 hs89)
    simp only [readSlot, specEncodeSlot, specEncode16, habs, if_true,
      List.cons_append, List.nil_append, List.take, List.drop]
    rw [if_neg (by simpa using hesc)]
    simp [int16_specEncode16 d hd1 hd2]
  | false =>
    obtain ⟨hd1, hd2, hd3⟩ := hn rfl
    rcases hs with h | h | h
    · have hne := specEncodeByte_ne_128 d hd1 hd2 (hd3 h)
      simp only [readSlot, specEncodeSlot, erdAbsDelta, h, if_true, if_false,
        Bool.false_eq_true, List.cons_append, List.take, List.drop]
      rw [if_neg (by simpa using hne)]
      simp [int8_specEncodeByte d hd1 hd2]
    all_goals
      simp only [readSlot, specEncodeSlot, erdAbsDelta, h, List.cons_append,
        List.take, List.drop]
      rw [if_neg (by simp)]
      simp [int8_specEncodeByte d hd1 hd2]

theorem readSlots_encode (schema : ℕ) (hs : schema = 7 ∨ schema = 8 ∨ schema = 9)
    (s : List (Bool × ℤ)) (rest : List ℕ)
    (hv : ∀ p ∈ s, ValidDelta schema p)
    (h7 : schema = 7 → ∀ p ∈ s, p.1 = false) :
    readSlots (erdAbsDelta schema) (s.map Prod.fst)
        ((s.map (fun p => specEncodeSlot p.1 p.2)).flatten ++ rest)
      = some (s.map (fun p => SlotOut.val p.2), rest) := by
  induction s with
  | nil => simp [readSlots]
  | cons p ps ih =>
    have hvp : ValidDelta schema p := hv p (by simp)
    have h7p : schema = 7 → p.1 = false := fun h => h7 h p (by simp)
    have hslot := readSlot_encode schema p.1 p.2
      ((ps.map (fun q => specEncodeSlot q.1 q.2)).flatten ++ rest) hs
      (by simpa using hvp) h7p
    simp only [List.map_cons, List.flatten_cons, List.append_assoc, readSlots, hslot,
      ih (fun q hq => hv q (by simp [hq])) (fun h q hq => h7 h q (by simp [hq]))]

theorem specByteOfBits_testBit (g : ℕ → Bool) (j : ℕ) (hj : j < 8) :
    Nat.testBit (specByteOfBits g) j = g j := by
  have hd : ∀ (b0 b1 b2 b3 b4 b5 b6 b7 : Bool) (i : Fin 8),
      Nat.testBit ((if b0 then 1 else 0) + 2 * (if b1 then 1 else 0)
        + 4 * (if b2 then 1 else 0) + 8 * (if b3 then 1 else 0)
        + 16 * (if b4 then 1 else 0) + 32 * (if b5 then 1 else 0)
        + 64 * (if b6 then 1 else 0) + 128 * (if b7 then 1 else 0)) i.val
        = [b0, b1, b2, b3, b4, b5, b6, b7].get i := by decide
  have h2 := hd (g 0) (g 1) (g 2) (g 3) (g 4) (g 5) (g 6) (g 7) ⟨j, hj⟩
  unfold specByteOfBits
  rw [h2]
  interval_cases j <;> rfl

theorem specMaskBytes_bit (n_chan : ℕ) (flags : ℕ → Bool) (c : ℕ) (hc : c < n_chan) :
    Nat.testBit ((specMaskBytes n_chan flags).getD (c / 8) 0) (c % 8) = flags c := by
  have hlt : c / 8 < l_deltamask n_chan := by
    unfold l_deltamask
    omega
  have hget : (specMaskBytes n_chan flags).getD (c / 8) 0
      = specByteOfBits (fun j => if 8 * (c / 8) + j < n_chan then flags (8 * (c / 8) + j) else true) := by
    unfold specMaskBytes
    rw [List.getD_eq_getElem?_getD, List.getElem?_map, List.getElem?_range hlt]
    rfl
  rw [hget, specByteOfBits_testBit _ _ (Nat.mod_lt c (by norm_num))]
  have hdm : 8 * (c / 8) + c % 8 = c := Nat.div_add_mod c 8
  rw [hdm, if_pos hc]

theorem sampleMask_encode (schema n_chan : ℕ) (s : List (Bool × ℤ))
    (hlen : s.length = n_chan) (h7 : schema = 7 → ∀ p ∈ s, p.1 = false) :
    sampleMask schema n_chan
        (if schema = 7 then [] else specMaskBytes n_chan (fun c => (s.getD c (true, 0)).1))
      = s.map Prod.fst := by
  by_cases h : schema = 7
  · simp only [sampleMask, h, if_true]
    symm
    rw [List.eq_replicate_iff]
    refine ⟨by simp [hlen], ?_⟩
    intro b hb
    obtain ⟨p, hp, hpb⟩ := List.mem_map.mp hb
    rw [← hpb]
    exact h7 h p hp
  · simp only [sampleMask, h, if_false]
    apply List.ext_getElem (by simp [hlen])
    intro i h1 h2
    simp only [List.getElem_map, List.getElem_range]
    have hi : i < n_chan := by simpa using h1
    rw [specMaskBytes_bit n_chan _ i hi]
    have his : i < s.length := by omega
    rw [List.getD_eq_getElem?_getD, List.getElem?_eq_getElem his]
    rfl

theorem resolveAbs_vals (s : List (Bool × ℤ)) (prev : List ℤ) (rem : List ℕ)
    (h : s.length = prev.length) :
    resolveAbs (s.map (fun p => SlotOut.val p.2)) prev rem
      = some (List.zipWith (fun a p => a + p.2) prev s, rem) := by
  induction s generalizing prev with
  | nil =>
    cases prev with
    | nil => simp [resolveAbs]
    | cons q qs => simp at h
  | cons p ps ih =>
    cases prev with
    | nil => simp at h
    | cons q qs =>
      simp only [List.map_cons, resolveAbs, List.zipWith_cons_cons]
      rw [ih qs (by simpa using h)]

theorem length_specMaskBytes (n : ℕ) (f : ℕ → Bool) :
    (specMaskBytes n f).length = l_deltamask n := by
  simp [specMaskBytes]

theorem stepSample_encode (schema n_chan : ℕ)
    (hs : schema = 7 ∨ schema = 8 ∨ schema = 9)
    (s : List (Bool × ℤ)) (prev : List ℤ) (rest : List ℕ)
    (hlen : s.length = n_chan) (hplen : prev.length = n_chan)
    (hv : ∀ p ∈ s, ValidDelta schema p)
    (h7 : schema = 7 → ∀ p ∈ s, p.1 = false) :
    stepSample schema n_chan prev (specEncodeSample schema n_chan s ++ rest)
      = .ok (List.zipWith (fun a p => a + p.2) prev s) rest := by
  have hslots := readSlots_encode schema hs s rest hv h7
  have habs := resolveAbs_vals s prev rest (by omega)
  have hmask := sampleMask_encode schema n_chan s hlen h7
  by_cases h : schema = 7
  · subst h
    simp only [if_pos rfl, if_true, eq_self_iff_true] at hmask
    simp only [specEncodeSample, if_pos rfl, if_true, eq_self_iff_true,
      List.nil_append, List.cons_append, stepSample, hmask, hslots, habs]
  · simp only [if_neg h] at hmask
    have hmb : (specMaskBytes n_chan (fun c => (s.getD c (true, 0)).1)).length
        = l_deltamask n_chan := length_specMaskBytes n_chan _
    simp only [specEncodeSample, if_neg h, List.cons_append, List.append_assoc,
      stepSample, if_neg h]
    rw [if_pos (by rw [List.length_append, hmb]; omega)]
    rw [List.take_append_of_le_length (by omega), List.take_of_length_le (by omega),
      List.drop_append_of_le_length (by omega), List.drop_of_length_le (by omega),
      List.nil_append]
    simp only [hmask, hslots, habs]

theorem specFold_cons (prev : List ℤ) (s : List (Bool × ℤ))
    (ss : List (List (Bool × ℤ))) :
    specFold prev (s :: ss) = specFold (List.zipWith (fun a p => a + p.2) prev s) ss := rfl

theorem decodeSamples_encode_general (schema n_chan : ℕ)
    (hs : schema = 7 ∨ schema = 8 ∨ schema = 9)
    (samples : List (List (Bool × ℤ))) :
    ∀ (prev : List ℤ) (count : ℕ) (tail : List ℕ),
    (∀ s ∈ samples, s.length = n_chan) → prev.length = n_chan →
    (∀ s ∈ samples, ∀ p ∈ s, ValidDelta schema p) →
    (schema = 7 → ∀ s ∈ samples, ∀ p ∈ s, p.1 = false) →
    samples.length ≤ count →
    decodeSamples schema n_chan count prev
        ((samples.map (specEncodeSample schema n_chan)).flatten ++ tail)
      = (decodeSamples schema n_chan (count - samples.length)
            (specFold prev samples) tail).map
          (fun cols => specAccumulate prev samples ++ cols) := by
  induction samples with
  | nil =>
    intro prev count tail _ _ _ _ _
    simp [specFold, specAccumulate]
  | cons s ss ih =>
    intro prev count tail hlen hplen hv h7 hcount
    cases count with
    | zero => simp at hcount
    | succ c =>
      have hstep := stepSample_encode schema n_chan hs s prev
        ((ss.map (specEncodeSample schema n_chan)).flatten ++ tail)
        (hlen s (by simp)) hplen (hv s (by simp)) (fun h => h7 h s (by simp))
      have hcollen : (List.zipWith (fun (a : ℤ) (p : Bool × ℤ) => a + p.2) prev s).length
          = n_chan := by
        rw [List.length_zipWith, hplen, hlen s (by simp)]
        omega
      have hih := ih (List.zipWith (fun a p => a + p.2) prev s) c tail
        (fun q hq => hlen q (by simp [hq])) hcollen
        (fun q hq => hv q (by simp [hq])) (fun h q hq => h7 h q (by simp [hq]))
        (by simpa using hcount)
      simp only [List.map_cons, List.flatten_cons, List.append_assoc, decodeSamples,
        hstep, hih, specFold_cons, specAccumulate, List.length_cons,
        Nat.succ_sub_succ_eq_sub]
      cases decodeSamples schema n_chan (c - ss.length)
          (specFold (List.zipWith (fun a p => a + p.2) prev s) ss) tail with
      | none => simp
      | some cols => simp

theorem length_specAccumulate (samples : List (List (Bool × ℤ))) :
    ∀ prev : List ℤ, (specAccumulate prev samples).length = samples.length := by
  induction samples with
  | nil => intro prev; rfl
  | cons s ss ih => intro prev; simp [specAccumulate, ih]

/-- C1: for every number of channels and schema in {7, 8, 9}, decoding a
byte stream produced by the matching reference encoder from known
per-channel deltas yields exactly the accumulated integer values, that is
the columns of the recurrence `value[c][s] = value[c][s - 1] + delta` with
sample 0's predecessor equal to 0, deltas being two's-complement signed,
8-bit for mask bit 0 and 16-bit for mask bit 1, mask bits taken
least-significant-first within each byte. -/
theorem c1_decoder_reproduces_accumulated_deltas (schema n_chan : ℕ)
    (samples : List (List (Bool × ℤ)))
    (hs : schema = 7 ∨ schema = 8 ∨ schema = 9) (_hn : 1 ≤ n_chan)
    (hlen : ∀ s ∈ samples, s.length = n_chan)
    (hv : ∀ s ∈ samples, ∀ p ∈ s, ValidDelta schema p)
    (h7 : schema = 7 → ∀ s ∈ samples, ∀ p ∈ s, p.1 = false) :
    readErdOutput schema n_chan samples.length (specEncodeErd schema n_chan samples)
      = some (specAccumulate (List.replicate n_chan 0) samples) := by
  have h := decodeSamples_encode_general schema n_chan hs samples
    (List.replicate n_chan 0) samples.length [] hlen (by simp) hv h7 le_rfl
  rw [List.append_nil] at h
  unfold readErdOutput specEncodeErd
  rw [if_pos hs, drop_replicate_append, h]
  simp [decodeSamples, length_specAccumulate]

/-- Witness for C1: a two-channel schema-8 stream mixing narrow and wide
deltas. -/
theorem c1_witness :
    readErdOutput 8 2 c1Samples.length (specEncodeErd 8 2 c1Samples)
      = some (specAccumulate (List.replicate 2 0) c1Samples) :=
  c1_decoder_reproduces_accumulated_deltas 8 2 c1Samples (by decide) (by decide)
    (by decide) (by decide) (by decide)

theorem decodeSamples_nil (schema n_chan k : ℕ) (prev : List ℤ) :
    decodeSamples schema n_chan k prev [] = some [] := by
  cases k with
  | zero => rfl
  | succ m => simp [decodeSamples, stepSample]

theorem stepSample_single_byte (schema n_chan : ℕ)
    (hs : schema = 7 ∨ schema = 8 ∨ schema = 9) (hn : 1 ≤ n_chan)
    (prev : List ℤ) (b : ℕ) :
    stepSample schema n_chan prev [b] = .err := by
  by_cases h : schema = 7
  · subst h
    cases n_chan with
    | zero => omega
    | succ m =>
      simp [stepSample, sampleMask, List.replicate_succ, readSlots, readSlot,
        erdAbsDelta]
  · have hl : l_deltamask n_chan ≠ 0 := by
      unfold l_deltamask
      omega
    simp [stepSample, if_neg h, hl]

/-- C2 (amended): when the byte stream ends exactly at a sample-record
boundary before `n_samples` records, the decoder stops and returns the
nominal-size matrix, the missing samples left zero-filled, with no
truncation indicator; when the stream ends inside a record (here: one
stray event byte with nothing after it) the decode raises instead of
returning a partial result. -/
theorem c2_truncation_behavior (schema n_chan n_samples : ℕ)
    (samples : List (List (Bool × ℤ)))
    (hs : schema = 7 ∨ schema = 8 ∨ schema = 9)
    (hlen : ∀ s ∈ samples, s.length = n_chan)
    (hv : ∀ s ∈ samples, ∀ p ∈ s, ValidDelta schema p)
    (h7 : schema = 7 → ∀ s ∈ samples, ∀ p ∈ s, p.1 = false)
    (hns : samples.length ≤ n_samples) :
    readErdOutput schema n_chan n_samples (specEncodeErd schema n_chan samples)
      = some (specAccumulate (List.replicate n_chan 0) samples
          ++ List.replicate (n_samples - samples.length) (List.replicate n_chan 0)) ∧
    (1 ≤ n_chan → samples.length < n_samples →
      readErdOutput schema n_chan n_samples (specEncodeErd schema n_chan samples ++ [0])
        = none) := by
  constructor
  · have h := decodeSamples_encode_general schema n_chan hs samples
      (List.replicate n_chan 0) n_samples [] hlen (by simp) hv h7 hns
    rw [List.append_nil, decodeSamples_nil] at h
    unfold readErdOutput specEncodeErd
    rw [if_pos hs, drop_replicate_append, h]
    simp [length_specAccumulate]
  · intro hn hlt
    have h := decodeSamples_encode_general schema n_chan hs samples
      (List.replicate n_chan 0) n_samples [0] hlen (by simp) hv h7 hns
    have hk : ∃ k, n_samples - samples.length = k + 1 := ⟨n_samples - samples.length - 1, by omega⟩
    obtain ⟨k, hk⟩ := hk
    rw [hk] at h
    rw [show decodeSamples schema n_chan (k + 1)
        (specFold (List.replicate n_chan 0) samples) [0] = none by
      simp [decodeSamples, stepSample_single_byte schema n_chan hs hn]] at h
    unfold readErdOutput specEncodeErd
    rw [if_pos hs, List.append_assoc, drop_replicate_append, h]
    rfl

/-- Witness for C2 (amended): two full samples, a nominal count of three. -/
theorem c2_witness :
    readErdOutput 8 1 3 (specEncodeErd 8 1 c2Samples)
      = some (specAccumulate (List.replicate 1 0) c2Samples
          ++ List.replicate (3 - c2Samples.length) (List.replicate 1 0)) ∧
    (1 ≤ 1 → c2Samples.length < 3 →
      readErdOutput 8 1 3 (specEncodeErd 8 1 c2Samples ++ [0]) = none) :=
  c2_truncation_behavior 8 1 3 c2Samples (by decide) (by decide) (by decide)
    (by decide) (by decide)

/-- Counterexample for C2 as stated: a stream holding two full samples of
a three-sample segment decodes to a three-column matrix whose last column
is silently zero-filled, with no truncation indicator, rather than to the
two decoded samples; and a stream cut inside the second sample raises
(`struct.error`) rather than returning the one decoded sample. -/
theorem c2_counterexample :
    readErdOutput 8 1 3 (List.replicate 8656 0 ++ [0, 0, 5, 0, 0, 7])
      = some [[5], [12], [0]] ∧
    readErdOutput 8 1 2 (List.replicate 8656 0 ++ [0, 0, 5, 0, 0]) = none := by
  constructor
  · unfold readErdOutput
    rw [show erdStartOffset 8 = 8656 from rfl, drop_replicate_append]
    decide
  · unfold readErdOutput
    rw [show erdStartOffset 8 = 8656 from rfl, drop_replicate_append]
    decide

/-- C3: there is no strict mode and no `BadEventByte` failure.  The source
asserts the event byte is 0 or 1 inside a `try` whose `except` branch
builds an `Exception` object without raising it, so a sample whose event
byte is any value, for instance the corrupt 2, decodes exactly like one
with event byte 0; decoding never fails because of the event byte and no
strict or lenient configuration exists. -/
theorem c3_event_byte_never_rejected :
    (∀ ev : ℕ, readErdOutput 8 1 1 (List.replicate 8656 0 ++ [ev, 0, 5]) = some [[5]]) ∧
    readErdOutput 8 1 1 (List.replicate 8656 0 ++ [2, 0, 5]) = some [[5]] := by
  have h : ∀ ev : ℕ,
      readErdOutput 8 1 1 (List.replicate 8656 0 ++ [ev, 0, 5]) = some [[5]] := by
    intro ev
    unfold readErdOutput
    rw [show erdStartOffset 8 = 8656 from rfl, drop_replicate_append]
    rfl
  exact ⟨h, h 2⟩

theorem erdOutput_bytesC4 : readErdOutput 8 1 1 bytesC4 = some [[5]] := by
  unfold bytesC4 readErdOutput
  rw [show erdStartOffset 8 = 8656 from rfl, drop_replicate_append]
  decide

theorem read_erd_bytesC4 : read_erd hdrC4 1 bytesC4 = some [[8711 / 44100000]] := by
  unfold read_erd
  simp only [hdrC4, Option.bind_eq_bind, Option.some_bind]
  rw [erdOutput_bytesC4]
  simp only [Option.some_bind, calculate_conversion]
  norm_num

/-- Counterexample for C4 as stated: on a one-sample stream whose raw
decoded value is the integer 5, `_read_erd` returns the converted value
`5 * 8711 / 220.5 * 1e-6`, not the raw integer matrix: the conversion by
the channel table happens inside the decoder, not in the caller. -/
theorem c4_counterexample :
    read_erd hdrC4 1 bytesC4 = some [[8711 / 44100000]] ∧
    readErdOutput 8 1 1 bytesC4 = some [[5]] ∧
    ((8711 / 44100000 : ℚ) ≠ ((5 : ℤ) : ℚ)) :=
  ⟨read_erd_bytesC4, erdOutput_bytesC4, by norm_num⟩

/-- C4 (amended): `_read_erd` itself applies the physical-unit conversion:
whatever matrix it returns is the raw integer output multiplied, channel by
channel, by the conversion vector of `_calculate_conversion`; the caller
applies no conversion of its own. -/
theorem c4_conversion_inside_decoder (hdr : Hdr) (n_samples : ℕ)
    (bytes : List ℕ) (m : List (List ℚ))
    (h : read_erd hdr n_samples bytes = some m) :
    ∃ ext raw factor, hdr.ext7 = some ext ∧
      readErdOutput hdr.file_schema ext.num_channels n_samples bytes = some raw ∧
      calculate_conversion (ext.headbox_type.getD 0 0) ext.discardbits ext.num_channels
        = some factor ∧
      factor.length = ext.num_channels ∧
      m = raw.map (fun col => List.zipWith (fun (f : ℚ) (v : ℤ) => f * (v : ℚ)) factor col) := by
  unfold read_erd at h
  cases hext : hdr.ext7 with
  | none => rw [hext] at h; simp at h
  | some ext =>
    rw [hext] at h
    simp only [Option.bind_eq_bind, Option.some_bind] at h
    cases hraw : readErdOutput hdr.file_schema ext.num_channels n_samples bytes with
    | none => rw [hraw] at h; simp at h
    | some raw =>
      rw [hraw] at h
      simp only [Option.some_bind] at h
      cases hfac : calculate_conversion (ext.headbox_type.getD 0 0) ext.discardbits
          ext.num_channels with
      | none => rw [hfac] at h; simp at h
      | some factor =>
        rw [hfac] at h
        simp only [Option.some_bind] at h
        by_cases hflen : factor.length = ext.num_channels
        · rw [if_pos hflen] at h
          refine ⟨ext, raw, factor, rfl, hraw, hfac, hflen, ?_⟩
          simpa using h.symm
        · rw [if_neg hflen] at h
          simp at h

/-- Witness for C4 (amended) at the concrete schema-8 stream. -/
theorem c4_witness :
    ∃ ext raw factor, hdrC4.ext7 = some ext ∧
      readErdOutput hdrC4.file_schema ext.num_channels 1 bytesC4 = some raw ∧
      calculate_conversion (ext.headbox_type.getD 0 0) ext.discardbits ext.num_channels
        = some factor ∧
      factor.length = ext.num_channels ∧
      some [[(8711 / 44100000 : ℚ)]]
        = some (raw.map (fun col => List.zipWith (fun (f : ℚ) (v : ℤ) => f * (v : ℚ)) factor col)) := by
  obtain ⟨ext, raw, factor, h1, h2, h3, h4, h5⟩ :=
    c4_conversion_inside_decoder hdrC4 1 bytesC4 [[(8711 / 44100000 : ℚ)]]
      read_erd_bytesC4
  exact ⟨ext, raw, factor, h1, h2, h3, h4, by rw [h5]⟩

/-- C7: header parsing is all-or-nothing.  Whenever the schema field at
offset 16 holds a value outside {1, 7, 8, 9} -- in particular 5 -- the
parse is exactly the `UnsupportedSchema` error carrying that value, and
whenever the schema is supported but the base-schema field at offset 18 is
not 1, the parse is exactly the `UnsupportedBaseSchema` error; in either
case no header value is produced. -/
theorem c7_header_schema_errors (bs : List ℕ) :
    (18 ≤ bs.length →
      ¬(bs.getD 16 0 + 256 * bs.getD 17 0 = 1 ∨ bs.getD 16 0 + 256 * bs.getD 17 0 = 7
        ∨ bs.getD 16 0 + 256 * bs.getD 17 0 = 8 ∨ bs.getD 16 0 + 256 * bs.getD 17 0 = 9) →
      read_hdr_file bs = .error (.unsupportedSchema (bs.getD 16 0 + 256 * bs.getD 17 0))) ∧
    (20 ≤ bs.length →
      (bs.getD 16 0 + 256 * bs.getD 17 0 = 1 ∨ bs.getD 16 0 + 256 * bs.getD 17 0 = 7
        ∨ bs.getD 16 0 + 256 * bs.getD 17 0 = 8 ∨ bs.getD 16 0 + 256 * bs.getD 17 0 = 9) →
      bs.getD 18 0 + 256 * bs.getD 19 0 ≠ 1 →
      read_hdr_file bs = .error (.unsupportedBaseSchema (bs.getD 18 0 + 256 * bs.getD 19 0))) := by
  constructor
  · intro hlen hbad
    unfold read_hdr_file
    rw [show readU16 bs 16 = .ok (bs.getD 16 0 + 256 * bs.getD 17 0) from by
      unfold readU16; rw [if_pos (by omega)]]
    simp only [Bind.bind, Except.bind]
    rw [if_neg hbad]
  · intro hlen hgood hbad
    unfold read_hdr_file
    rw [show readU16 bs 16 = .ok (bs.getD 16 0 + 256 * bs.getD 17 0) from by
      unfold readU16; rw [if_pos (by omega)]]
    simp only [Bind.bind, Except.bind]
    rw [if_pos hgood]
    rw [show readU16 bs 18 = .ok (bs.getD 18 0 + 256 * bs.getD 19 0) from by
      unfold readU16; rw [if_pos (by omega)]]
    simp only [Bind.bind, Except.bind]
    rw [if_neg hbad]

/-- Witness for C7: a header whose schema field is 5 is rejected with
`UnsupportedSchema 5`, and one with schema 7 but base-schema 2 is rejected
with `UnsupportedBaseSchema 2`. -/
theorem c7_witness :
    read_hdr_file (List.replicate 16 0 ++ [5, 0]) = .error (.unsupportedSchema 5) ∧
    read_hdr_file (List.replicate 16 0 ++ [7, 0, 2, 0]) = .error (.unsupportedBaseSchema 2) := by
  constructor
  · have h := (c7_header_schema_errors (List.replicate 16 0 ++ [5, 0])).1
      (by decide) (by decide)
    simpa using h
  · have h := (c7_header_schema_errors (List.replicate 16 0 ++ [7, 0, 2, 0])).2
      (by decide) (by decide) (by decide)
    simpa using h

/-- C9: for headbox type 1 with no discard bits the conversion vector is
constant across all channels, every entry exactly
`8711 / 220.5 * 1e-6 ≈ 3.9506e-5`, which is within `1.1e-7` (about 0.3
per cent) of the spec's stated `3.94e-5`. -/
theorem c9_headbox1_constant_factor (n_chan : ℕ) :
    ∃ l, calculate_conversion 1 0 n_chan = some l ∧ l.length = n_chan ∧
      ∀ v ∈ l, v = 8711 / (221 - 0.5) * 1e-6 ∧ |v - 3.94e-5| < 1.1e-7 := by
  refine ⟨(List.replicate n_chan ((8711 : ℚ) / (221 - 0.5) * 2 ^ (0 : ℤ))).map
    (fun x => x * 1e-6), ?_, by simp, ?_⟩
  · unfold calculate_conversion
    norm_num
  · intro v hv
    simp only [List.mem_map, List.eq_of_mem_replicate] at hv
    obtain ⟨x, hx, hvx⟩ := hv
    rw [List.eq_of_mem_replicate hx] at hvx
    rw [← hvx]
    norm_num [abs_lt]

/-- C10: with the schema-8/9 escape sentinel `\xff\xff`, a narrow slot
(mask bit 0) is never treated as an escape -- its one byte can never equal
the two-byte sentinel -- so byte `0x80` decodes as the ordinary delta
-128; only a wide slot whose two bytes are both `0xff` is marked pending
for the 32-bit absolute read. -/
theorem c10_narrow_never_escape (schema : ℕ) (h : schema = 8 ∨ schema = 9) :
    (∀ b rem, readSlot (erdAbsDelta schema) false (b :: rem)
      = some (.val (int8 b), rem)) ∧
    (∀ rem, readSlot (erdAbsDelta schema) false (128 :: rem)
      = some (.val (-128), rem)) ∧
    (∀ b0 b1 rem, readSlot (erdAbsDelta schema) true (b0 :: b1 :: rem)
      = if b0 = 255 ∧ b1 = 255 then some (.pending, rem)
        else some (.val (int16 b0 b1), rem)) := by
  have habs : erdAbsDelta schema = [255, 255] := by
    rcases h with h | h <;> simp [erdAbsDelta, h]
  refine ⟨?_, ?_, ?_⟩
  · intro b rem
    simp [readSlot, habs]
  · intro rem
    have h128 : int8 128 = -128 := by norm_num [int8]
    simp [readSlot, habs, h128]
  · intro b0 b1 rem
    by_cases hb : b0 = 255 ∧ b1 = 255
    · obtain ⟨h0, h1⟩ := hb
      subst h0
      subst h1
      simp [readSlot, habs]
    · rw [if_neg hb]
      have hne : ¬([b0, b1] = [255, 255]) := by
        simp only [List.cons.injEq, and_true]
        tauto
      simp only [readSlot, habs, if_false]
      rw [if_neg (by simpa using hne)]
      simp

/-- Witness for C10 at schema 8: the narrow byte `0x80` yields delta -128
and the wide pair `0xff 0xff` is the only pending marker. -/
theorem c10_witness :
    readSlot (erdAbsDelta 8) false [128] = some (.val (-128), []) ∧
    readSlot (erdAbsDelta 8) true [255, 255] = some (.pending, []) :=
  ⟨(c10_narrow_never_escape 8 (Or.inl rfl)).2.1 [],
    by
      have h := (c10_narrow_never_escape 8 (Or.inl rfl)).2.2 255 255 []
      simpa using h⟩

theorem drop_exact_append {α : Type} (l1 l2 : List α) (n : ℕ) (h : l1.length = n) :
    (l1 ++ l2).drop n = l2 := by
  subst h
  rw [List.drop_append_of_le_length le_rfl]
  simp

theorem take_exact_append {α : Type} (l1 l2 : List α) (n : ℕ) (h : l1.length = n) :
    (l1 ++ l2).take n = l1 := by
  subst h
  rw [List.take_append_of_le_length le_rfl, List.take_of_length_le le_rfl]

theorem takeWhile_name (name : List ℕ) (k : ℕ) (hk : 1 ≤ k)
    (h : ∀ b ∈ name, b ≠ 0) :
    List.takeWhile (fun b => decide (b ≠ 0)) (name ++ List.replicate k 0) = name := by
  induction name with
  | nil =>
    cases k with
    | zero => omega
    | succ m => simp [List.replicate_succ, List.takeWhile_cons]
  | cons a as ih =>
    rw [List.cons_append, List.takeWhile_cons]
    have ha : a ≠ 0 := h a (by simp)
    have ih2 := ih (fun b hb => h b (by simp [hb]))
    simp only [decide_not] at ih2
    simp [ha, ih2]

theorem make_str_padded (name : List ℕ) (k : ℕ) (hk : 1 ≤ k)
    (h : ∀ b ∈ name, 0 < b ∧ b < 128) :
    make_str (name ++ List.replicate k 0) = .ok name := by
  unfold make_str
  rw [takeWhile_name name k hk (fun b hb => by have := (h b hb).1; omega)]
  rw [if_pos]
  simp only [List.all_eq_true, decide_eq_true_eq]
  intro b hb
  exact (h b hb).2

theorem int32_specEncodeI32 (x : ℤ) (h1 : -2147483648 ≤ x) (h2 : x < 2147483648) :
    int32 (x % 4294967296 % 256).toNat (x % 4294967296 / 256 % 256).toNat
      (x % 4294967296 / 65536 % 256).toNat (x % 4294967296 / 16777216 % 256).toNat
      = x := by
  unfold int32
  split <;> omega

theorem length_specEncodeStcEntry (e : StcEntry) (h : e.segment_name.length ≤ 255) :
    (specEncodeStcEntry e).length = 272 := by
  simp [specEncodeStcEntry, specEncodeI32]
  omega

theorem parseStcRecords_encode_cons (e : StcEntry) (rest : List ℕ)
    (he : ValidStcEntry e) :
    parseStcRecords (specEncodeStcEntry e ++ rest)
      = match parseStcRecords rest with
        | .error e2 => .error e2
        | .ok es => .ok (e :: es) := by
  obtain ⟨⟨hlen, hbytes⟩, hrange⟩ := he
  have henc : (specEncodeStcEntry e).length = 272 := length_specEncodeStcEntry e hlen
  have hnp : (e.segment_name ++ List.replicate (256 - e.segment_name.length) 0).length
      = 256 := by
    simp
    omega
  have htake : (specEncodeStcEntry e ++ rest).take 256
      = e.segment_name ++ List.replicate (256 - e.segment_name.length) 0 := by
    unfold specEncodeStcEntry
    rw [List.append_assoc, take_exact_append _ _ 256 hnp]
  have hdropn : (specEncodeStcEntry e ++ rest).drop 256
      = (specEncodeI32 e.start_stamp ++ specEncodeI32 e.end_stamp
          ++ specEncodeI32 e.sample_num ++ specEncodeI32 e.sample_span) ++ rest := by
    unfold specEncodeStcEntry
    rw [List.append_assoc, drop_exact_append _ _ 256 hnp]
  have hdrop272 : (specEncodeStcEntry e ++ rest).drop 272 = rest :=
    drop_exact_append _ _ 272 henc
  have hne : specEncodeStcEntry e ++ rest ≠ [] := by
    intro hc
    have := congrArg List.length hc
    simp [henc] at this
  have hname := make_str_padded e.segment_name (256 - e.segment_name.length)
    (by omega) hbytes
  conv_lhs => rw [parseStcRecords]
  rw [dif_neg hne, dif_pos (by simp [henc]), htake, hname, hdropn, hdrop272]
  have hs := int32_specEncodeI32 e.start_stamp
    (by have := hrange e.start_stamp (by simp); omega)
    (by have := hrange e.start_stamp (by simp); omega)
  have hE := int32_specEncodeI32 e.end_stamp
    (by have := hrange e.end_stamp (by simp); omega)
    (by have := hrange e.end_stamp (by simp); omega)
  have hn := int32_specEncodeI32 e.sample_num
    (by have := hrange e.sample_num (by simp); omega)
    (by have := hrange e.sample_num (by simp); omega)
  have hp := int32_specEncodeI32 e.sample_span
    (by have := hrange e.sample_span (by simp); omega)
    (by have := hrange e.sample_span (by simp); omega)
  simp only [specEncodeI32, List.cons_append, List.nil_append, hs, hE, hn, hp]

theorem parseStcRecords_encode (entries : List StcEntry)
    (hv : ∀ e ∈ entries, ValidStcEntry e) :
    parseStcRecords ((entries.map specEncodeStcEntry).flatten) = .ok entries := by
  induction entries with
  | nil => rw [parseStcRecords]; simp
  | cons e es ih =>
    simp only [List.map_cons, List.flatten_cons]
    rw [parseStcRecords_encode_cons e _ (hv e (by simp)),
      ih (fun q hq => hv q (by simp [hq]))]

theorem getD_replicate_lt {α : Type} (n k : ℕ) (x d : α) (hk : k < n) :
    (List.replicate n x).getD k d = x := by
  rw [List.getD_eq_getElem?_getD, List.getElem?_replicate, if_pos hk]
  rfl

/-- C5 (amended): `_read_stc` performs no cross-record validation at all:
every well-formed sequence of records, whether or not the cumulative
offsets match the running totals of the spans, is parsed successfully and
returned verbatim; no `IndexInconsistent` failure exists in the code. -/
theorem c5_no_consistency_check (entries : List StcEntry)
    (hv : ∀ e ∈ entries, ValidStcEntry e) :
    read_stc (specEncodeStc entries)
      = .ok (StcHdr.mk 0 0 (List.replicate 12 0), entries) := by
  have hlen : 408 ≤ (specEncodeStc entries).length := by
    unfold specEncodeStc
    rw [List.length_append, List.length_replicate]
    omega
  have hget : ∀ k, k < 408 → (specEncodeStc entries).getD k 0 = 0 := by
    intro k hk
    unfold specEncodeStc
    rw [List.getD_append _ _ _ _ (by rw [List.length_replicate]; exact hk),
      getD_replicate_lt _ _ _ _ hk]
  have hr1 : readI32 (specEncodeStc entries) 352 = .ok 0 := by
    unfold readI32
    rw [if_pos (by omega), hget 352 (by omega), hget 353 (by omega),
      hget 354 (by omega), hget 355 (by omega)]
    rfl
  have hr2 : readI32 (specEncodeStc entries) 356 = .ok 0 := by
    unfold readI32
    rw [if_pos (by omega), hget 356 (by omega), hget 357 (by omega),
      hget 358 (by omega), hget 359 (by omega)]
    rfl
  have hr3 : readI32s (specEncodeStc entries) 360 12 = .ok (List.replicate 12 0) := by
    unfold readI32s
    rw [if_pos (by omega)]
    refine congrArg Except.ok ?_
    rw [List.eq_replicate_iff]
    refine ⟨by simp, ?_⟩
    intro b hb
    obtain ⟨k, hk, hkb⟩ := List.mem_map.mp hb
    have hk12 : k < 12 := List.mem_range.mp hk
    rw [← hkb, hget _ (by omega), hget _ (by omega), hget _ (by omega),
      hget _ (by omega)]
    rfl
  have hdrop : (specEncodeStc entries).drop 408
      = (entries.map specEncodeStcEntry).flatten := by
    unfold specEncodeStc
    exact drop_replicate_append 408 0 _
  unfold read_stc
  rw [hr1, hr2, hr3, hdrop, parseStcRecords_encode entries hv]
  rfl

/-- Witness for C5 (amended): the two-record file, inconsistent offsets
included, parses to exactly its two records. -/
theorem c5_witness :
    read_stc (specEncodeStc [stcE1, stcE2])
      = .ok (StcHdr.mk 0 0 (List.replicate 12 0), [stcE1, stcE2]) :=
  c5_no_consistency_check [stcE1, stcE2] (by decide)

/-- Counterexample for C5 as stated: a table of contents whose second
record's cumulative offset violates `offset[i] = offset[i-1] + span[i-1]`
is parsed successfully and returned, and the returned sequence indeed
violates the invariant -- `_read_stc` never fails with any
`IndexInconsistent`. -/
theorem c5_counterexample :
    (∃ r, read_stc (specEncodeStc [stcE1, stcE2]) = .ok r
       ∧ ¬ specStcConsistent r.2) := by
  refine ⟨(StcHdr.mk 0 0 (List.replicate 12 0), [stcE1, stcE2]), ?_, by decide⟩
  have h272 : (specEncodeStcEntry stcE1).length = 272 :=
    length_specEncodeStcEntry stcE1 (by decide)
  have hcons := parseStcRecords_encode [stcE1, stcE2] (by decide)
  have hlen : 408 ≤ (specEncodeStc [stcE1, stcE2]).length := by
    unfold specEncodeStc
    rw [List.length_append, List.length_replicate]
    omega
  have hget : ∀ k, k < 408 → (specEncodeStc [stcE1, stcE2]).getD k 0 = 0 := by
    intro k hk
    unfold specEncodeStc
    rw [List.getD_append _ _ _ _ (by rw [List.length_replicate]; exact hk),
      getD_replicate_lt _ _ _ _ hk]
  unfold read_stc
  rw [show readI32 (specEncodeStc [stcE1, stcE2]) 352 = .ok 0 by
      unfold readI32
      rw [if_pos (by omega), hget 352 (by omega), hget 353 (by omega),
        hget 354 (by omega), hget 355 (by omega)]
      rfl,
    show readI32 (specEncodeStc [stcE1, stcE2]) 356 = .ok 0 by
      unfold readI32
      rw [if_pos (by omega), hget 356 (by omega), hget 357 (by omega),
        hget 358 (by omega), hget 359 (by omega)]
      rfl]
  rw [show readI32s (specEncodeStc [stcE1, stcE2]) 360 12 = .ok (List.replicate 12 0) by
    unfold readI32s
    rw [if_pos (by omega)]
    refine congrArg Except.ok ?_
    rw [List.eq_replicate_iff]
    refine ⟨by simp, ?_⟩
    intro b hb
    obtain ⟨k, hk, hkb⟩ := List.mem_map.mp hb
    have hk12 : k < 12 := List.mem_range.mp hk
    rw [← hkb, hget _ (by omega), hget _ (by omega), hget _ (by omega),
      hget _ (by omega)]
    rfl]
  rw [show (specEncodeStc [stcE1, stcE2]).drop 408
      = ([stcE1, stcE2].map specEncodeStcEntry).flatten from
    drop_replicate_append 408 0 _]
  rw [hcons]
  rfl

/-- C6: a read spanning two adjacent segments does not equal the
concatenation of the two single-segment reads split at the boundary.  On
two three-sample segments holding 10, 11, 12 and 20, 21, 22, the split
reads of samples [1, 3) and [3, 5) correctly return 11, 12 and 20, 21,
but the spanning read of [1, 5) returns 20, 21, 0, 0: the non-final
segment's local end position is computed as `n_sam_rec[rec] + 1` (the
cumulative count before the segment, plus one) instead of the segment's
span, so the first segment contributes nothing and the result is shifted
and zero-padded.  This evaluates the translated `return_dat` at the
failing input of the code bug. -/
theorem c6_spanning_read_mismatch :
    return_dat erdC6 [3, 3] [0] 1 5 = some [[20, 21, 0, 0]] ∧
    return_dat erdC6 [3, 3] [0] 1 3 = some [[11, 12]] ∧
    return_dat erdC6 [3, 3] [0] 3 5 = some [[20, 21]] ∧
    return_dat erdC6 [3, 3] [0] 1 5
      ≠ some (List.zipWith (fun a b => a ++ b) [[(11 : ℚ), 12]] [[(20 : ℚ), 21]]) := by
  refine ⟨by decide, by decide, by decide, by decide⟩

/-- Counterexample for C8 as stated: a spanning read within the recording
(samples [9, 12) of segments spanning 10 and 2) raises a numpy shape
error -- the assembled slice positions turn negative -- so no matrix of
any shape is returned for this in-range request. -/
theorem c8_counterexample : return_dat erdC6 [10, 2] [0] 9 12 = none := by decide

theorem mapM_option_get {α β : Type} (f : α → Option β) :
    ∀ (cs : List α) (rows : List β), cs.mapM f = some rows →
      rows.length = cs.length ∧ ∀ j (d : α), j < cs.length → f (cs.getD j d) = rows.get? j := by
  intro cs
  induction cs with
  | nil =>
    intro rows h
    simp only [List.mapM_nil, pure, Option.some.injEq] at h
    subst h
    exact ⟨rfl, fun j d hj => absurd hj (by simp)⟩
  | cons c cs ih =>
    intro rows h
    rw [List.mapM_cons] at h
    cases hy : f c with
    | none => rw [hy] at h; simp at h
    | some y =>
      rw [hy] at h
      simp only [Option.bind_eq_bind, Option.some_bind] at h
      cases hys : cs.mapM f with
      | none => rw [hys] at h; simp at h
      | some ys =>
        rw [hys] at h
        simp only [Option.some_bind, pure, Option.some.injEq] at h
        subst h
        obtain ⟨hlen, hall⟩ := ih ys hys
        refine ⟨by simp [hlen], ?_⟩
        intro j d hj
        cases j with
        | zero => simpa using hy
        | succ k =>
          simp only [List.getD_cons_succ, List.get?_cons_succ]
          exact hall k d (by simpa using hj)

theorem pyIdx_le (n : ℕ) (i : ℤ) : pyIdx n i ≤ n := by
  unfold pyIdx
  split <;> omega

theorem fitWidth_length (w : ℕ) (vals vs : List ℚ) (h : fitWidth w vals = some vs) :
    vs.length = w := by
  unfold fitWidth at h
  split at h
  · cases h
    omega
  · split at h
    · cases h
      simp
    · cases h

theorem assignRow_length (row : List ℚ) (d1 d2 : ℤ) (vals row2 : List ℚ)
    (h : assignRow row d1 d2 vals = some row2) : row2.length = row.length := by
  simp only [assignRow] at h
  cases hf : fitWidth (pyIdx row.length d2 - pyIdx row.length d1) vals with
  | none => rw [hf] at h; cases h
  | some vs =>
    rw [hf] at h
    cases h
    have hvs := fitWidth_length _ _ _ hf
    have h1 := pyIdx_le row.length d1
    have h2 := pyIdx_le row.length d2
    simp only [List.length_append, List.length_take, List.length_drop]
    omega

theorem get?_zip_pair {α β : Type} (l1 : List α) (l2 : List β) (j : ℕ) (a : α) (b : β)
    (h1 : l1.get? j = some a) (h2 : l2.get? j = some b) :
    (List.zip l1 l2).get? j = some (a, b) := by
  have h1b : l1[j]? = some a := by rw [← List.get?_eq_getElem?]; exact h1
  have h2b : l2[j]? = some b := by rw [← List.get?_eq_getElem?]; exact h2
  simp [List.zip, List.get?_eq_getElem?, List.getElem?_zipWith', h1b, h2b]

theorem datAssign_spec (d1 d2 : ℤ) (dat rhs dat2 : List (List ℚ))
    (h : datAssign dat d1 d2 rhs = some dat2) :
    dat2.length = dat.length ∧
    ∀ j, j < dat.length → ∃ r v r2, dat.get? j = some r ∧ rhs.get? j = some v ∧
      dat2.get? j = some r2 ∧ assignRow r d1 d2 v = some r2 := by
  unfold datAssign at h
  split at h
  case isFalse => cases h
  case isTrue hlen =>
    obtain ⟨hl, hall⟩ := mapM_option_get _ _ _ h
    have hziplen : (List.zip dat rhs).length = dat.length := by
      simp [List.length_zip]
      omega
    refine ⟨by omega, ?_⟩
    intro j hj
    have hr : ∃ r, dat.get? j = some r := by
      cases hgr : dat.get? j with
      | none => rw [List.get?_eq_none] at hgr; omega
      | some r => exact ⟨r, rfl⟩
    have hv : ∃ v, rhs.get? j = some v := by
      cases hgv : rhs.get? j with
      | none => rw [List.get?_eq_none] at hgv; omega
      | some v => exact ⟨v, rfl⟩
    obtain ⟨r, hgr⟩ := hr
    obtain ⟨v, hgv⟩ := hv
    have hzip := get?_zip_pair dat rhs j r v hgr hgv
    have hj2 := hall j (r, v) (by omega)
    rw [List.getD_eq_getElem?_getD, ← List.get?_eq_getElem?, hzip] at hj2
    have hr2 : ∃ r2, dat2.get? j = some r2 := by
      cases hgr2 : dat2.get? j with
      | none => rw [List.get?_eq_none] at hgr2; omega
      | some r2 => exact ⟨r2, rfl⟩
    obtain ⟨r2, hgr2⟩ := hr2
    rw [hgr2] at hj2
    exact ⟨r, v, r2, hgr, hgv, hgr2, by simpa using hj2⟩

theorem mapM_option_single {α β : Type} (f : α → Option β) (c : α) :
    [c].mapM f = (f c).map (fun y => [y]) := by
  rw [List.mapM_cons, List.mapM_nil]
  cases hy : f c <;> simp [hy]

theorem datAssign_single (r v : List ℚ) (d1 d2 : ℤ) :
    datAssign [r] d1 d2 [v] = (assignRow r d1 d2 v).map (fun r2 => [r2]) := by
  unfold datAssign
  simp only [List.length_cons, List.length_nil, if_true, List.zip_cons_cons,
    List.zip_nil_right]
  rw [List.mapM_cons, List.mapM_nil]
  cases h : assignRow r d1 d2 v <;> simp [h]

theorem returnDatStep_spec (erd : ℕ → ℕ → List (List ℚ)) (chan : List ℕ)
    (begpos endpos : ℤ) (rec : ℕ) (dat : List (List ℚ)) (d1 : ℤ)
    (dat2 : List (List ℚ)) (d2 : ℤ)
    (h : returnDatStep erd chan begpos endpos rec dat d1 = some (dat2, d2))
    (hlen : dat.length = chan.length) :
    dat2.length = chan.length ∧ d2 = endpos - begpos + d1 ∧
    (∀ L, (∀ r ∈ dat, r.length = L) → ∀ r2 ∈ dat2, r2.length = L) ∧
    ∀ j, j < chan.length → ∀ r, dat.get? j = some r →
      ∃ r2, returnDatStep erd [chan.getD j 0] begpos endpos rec [r] d1
          = some ([r2], d2) ∧ dat2.get? j = some r2 := by
  simp only [returnDatStep] at h
  split at h
  case isTrue => cases h
  case isFalse hpos =>
    split at h
    next hrows => cases h
    next rows hrows =>
      split at h
      next hda => cases h
      next datM hda =>
        cases h
        obtain ⟨hrl, hrall⟩ := mapM_option_get _ _ _ hrows
        obtain ⟨hdl, hdall⟩ := datAssign_spec _ _ _ _ _ hda
        refine ⟨by omega, rfl, ?_, ?_⟩
        · intro L hL r2 hr2
          obtain ⟨j, hj⟩ := List.mem_iff_get?.mp hr2
          have hjlt : j < dat.length := by
            by_contra hc
            rw [List.get?_eq_none.mpr (by omega)] at hj
            cases hj
          obtain ⟨r, v, r2x, hgr, hgv, hgr2, hassign⟩ := hdall j hjlt
          rw [hj] at hgr2
          cases hgr2
          rw [assignRow_length _ _ _ _ _ hassign]
          exact hL r (List.get?_mem hgr)
        · intro j hj r hgr0
          have hjd : j < dat.length := by omega
          obtain ⟨r, v, r2, hgr, hgv, hgr2, hassign⟩ := hdall j hjd
          rw [hgr0] at hgr
          cases hgr
          refine ⟨r2, ?_, hgr2⟩
          have hfj := hrall j 0 (by omega)
          have hvj : ∃ vj, rows.get? j = some vj := by
            cases hq : rows.get? j with
            | none =>
              rw [List.get?_eq_none] at hq
              omega
            | some vj => exact ⟨vj, rfl⟩
          obtain ⟨vj, hvj⟩ := hvj
          have hvv : v = pySlice vj begpos endpos := by
            have := hgv
            rw [List.get?_map, hvj] at this
            simpa using this.symm
          rw [hvv] at hassign
          simp only [returnDatStep, mapM_option_single]
          rw [if_neg hpos, hfj.trans hvj]
          simp [datAssign_single, hassign]

theorem returnDatLoop_single (erd : ℕ → ℕ → List (List ℚ)) (nsr : List ℤ)
    (chan : List ℕ) (begrec endrec : ℕ) (begsam endsam : ℤ) :
    ∀ (recs : List ℕ) (dat : List (List ℚ)) (d1 : ℤ) (dat2 : List (List ℚ)) (d2 : ℤ),
      returnDatLoop erd nsr chan begrec endrec begsam endsam recs (dat, d1)
        = some (dat2, d2) →
      dat.length = chan.length →
      dat2.length = chan.length ∧
      (∀ L, (∀ r ∈ dat, r.length = L) → ∀ r2 ∈ dat2, r2.length = L) ∧
      ∀ j, j < chan.length → ∀ r, dat.get? j = some r →
        ∃ r2, returnDatLoop erd nsr [chan.getD j 0] begrec endrec begsam endsam recs
            ([r], d1) = some ([r2], d2) ∧ dat2.get? j = some r2 := by
  intro recs
  induction recs with
  | nil =>
    intro dat d1 dat2 d2 h hlen
    simp only [returnDatLoop, Option.some.injEq, Prod.mk.injEq] at h
    obtain ⟨h1, h2⟩ := h
    subst h1
    subst h2
    exact ⟨hlen, fun L hL => hL,
      fun j hj r hr => ⟨r, by simp [returnDatLoop], hr⟩⟩
  | cons rec recs ih =>
    intro dat d1 dat2 d2 h hlen
    simp only [returnDatLoop] at h
    cases hstep : returnDatStep erd chan
        (if rec = begrec then begsam - nsr.getD rec 0 else 0)
        (if rec = endrec then endsam - nsr.getD rec 0 else nsr.getD rec 0 + 1)
        rec dat d1 with
    | none => rw [hstep] at h; cases h
    | some st2 =>
      rw [hstep] at h
      obtain ⟨datM, d2M⟩ := st2
      obtain ⟨hMlen, _, hLpres, hsingle⟩ :=
        returnDatStep_spec _ _ _ _ _ _ _ _ _ hstep hlen
      obtain ⟨hflen, hfL, hfsingle⟩ := ih datM d2M dat2 d2 h hMlen
      refine ⟨hflen, fun L hL => hfL L (hLpres L hL), ?_⟩
      intro j hj r hr
      obtain ⟨r2, hstep1, hgr2⟩ := hsingle j hj r hr
      obtain ⟨r3, hloop1, hgr3⟩ := hfsingle j hj r2 hgr2
      refine ⟨r3, ?_, hgr3⟩
      simp only [returnDatLoop]
      rw [hstep1]
      exact hloop1

/-- C8 (amended): whenever `return_dat` completes without an exception, the
result has exactly one row per requested channel, every row holds exactly
`endsam - begsam` samples, and the rows come in channel-request order: row
`j` is exactly the row the same call would return for the single requested
channel `chan[j]`.  Values are those of the per-segment `_read_erd`
matrices, which already carry the physical-unit conversion. -/
theorem c8_shape_and_order (erd : ℕ → ℕ → List (List ℚ)) (spans : List ℤ)
    (chan : List ℕ) (begsam endsam : ℤ) (dat : List (List ℚ))
    (h : return_dat erd spans chan begsam endsam = some dat) :
    dat.length = chan.length ∧
    (∀ row ∈ dat, row.length = (endsam - begsam).toNat) ∧
    ∀ j, j < chan.length → ∃ row, dat.get? j = some row ∧
      return_dat erd spans [chan.getD j 0] begsam endsam = some [row] := by
  cases hbeg : lastIdxLE (n_sam_rec spans) begsam with
  | none =>
    simp only [return_dat, hbeg] at h
    exact Option.noConfusion h
  | some begrec =>
    cases hend : lastIdxLT (n_sam_rec spans) endsam with
    | none =>
      simp only [return_dat, hbeg, hend] at h
      exact Option.noConfusion h
    | some endrec =>
      simp only [return_dat, hbeg, hend] at h
      split at h
      case isTrue => cases h
      case isFalse hwid =>
        cases hloop : returnDatLoop erd (n_sam_rec spans) chan begrec endrec
            begsam endsam (List.range' begrec (endrec + 1 - begrec))
            (List.replicate chan.length
              (List.replicate (endsam - begsam).toNat 0), 0) with
        | none => rw [hloop] at h; cases h
        | some st =>
          obtain ⟨datF, dF⟩ := st
          rw [hloop] at h
          cases h
          obtain ⟨hflen, hfL, hfsingle⟩ :=
            returnDatLoop_single erd (n_sam_rec spans) chan begrec endrec begsam
              endsam _ _ _ _ _ hloop (by simp)
          refine ⟨hflen, ?_, ?_⟩
          · exact hfL (endsam - begsam).toNat
              (fun r hr => by rw [List.eq_of_mem_replicate hr]; simp)
          · intro j hj
            obtain ⟨r2, hloop1, hgr2⟩ := hfsingle j hj
              (List.replicate (endsam - begsam).toNat 0)
              (by
                rw [List.get?_eq_getElem?, List.getElem?_replicate, if_pos hj])
            refine ⟨r2, hgr2, ?_⟩
            simp only [return_dat, hbeg, hend]
            rw [if_neg hwid]
            simp only [List.length_singleton, List.replicate_one]
            rw [hloop1]

/-- Witness for C8 (amended): a two-channel single-segment read of two
samples, with the conclusion instantiated at the concrete result. -/
theorem c8_witness :
    return_dat erdC8 [3] [0, 1] 0 2 = some [[1, 2], [4, 5]] ∧
    ([[(1 : ℚ), 2], [4, 5]].length = ([0, 1] : List ℕ).length ∧
     (∀ row ∈ [[(1 : ℚ), 2], [4, 5]], row.length = ((2 : ℤ) - 0).toNat) ∧
     ∀ j, j < ([0, 1] : List ℕ).length → ∃ row,
       [[(1 : ℚ), 2], [4, 5]].get? j = some row ∧
       return_dat erdC8 [3] [([0, 1] : List ℕ).getD j 0] 0 2 = some [row]) := by
  have h : return_dat erdC8 [3] [0, 1] 0 2 = some [[1, 2], [4, 5]] := by decide
  exact ⟨h, c8_shape_and_order erdC8 [3] [0, 1] 0 2 _ h⟩
